import Mathlib

/-!
# Matchmaking service (go-matchmaking/matchmaking-service/main.go)

A shallow embedding of the matchmaking service: the player pool with
`AddPlayer` and `createMatch`, the WebSocket client registry with
`NotifyMatchReady`, and the HTTP handler `handleMatchmaking`.

Go slices are lists, the Go `int` is a 64-bit two's-complement integer
(an `Int` wrapped by `wrapInt` after every addition), the mutexes make every
operation atomic so each operation is a function from state to state.
-/

namespace Matchmaking

/-! ## Data model -/

/-- Go `int` on a 64-bit platform: the result of an addition is reduced into
the range `-2^63 .. 2^63 - 1`. -/
def wrapInt (x : Int) : Int :=
  (x + 9223372036854775808) % 18446744073709551616 - 9223372036854775808

/-- The largest Go `int`, `2^63 - 1`. -/
def maxInt : Int := 9223372036854775807

/-- The smallest Go `int`, `-2^63`. -/
def minInt : Int := -9223372036854775808

/-- Player info sent by a client (`type Player struct`). -/
structure Player where
  Id : String
  Rating : Int
  Role : String
deriving DecidableEq

/-- Two teams (`type Match struct`). -/
structure Match where
  Team1 : List Player
  Team2 : List Player
deriving DecidableEq

/-- The pool of waiting players (`type Matchmaker struct`; the mutex is the
atomicity of each operation). -/
structure Matchmaker where
  PlayerPool : List Player
deriving DecidableEq

/-! ## sort.Slice

`createMatch` calls `sort.Slice(m.PlayerPool, less)` of the Go standard
library with `less i j := PlayerPool[i].Rating > PlayerPool[j].Rating`.
For a slice of at most 12 elements `sort.Slice` runs

    for i := a + 1; i < b; i++ {
        for j := i; j > a && data.Less(j, j-1); j-- {
            data.Swap(j, j-1)
        }
    }

(`insertionSort_func`, called by `pdqsort_func` with `a = 0`, `b = len` since
Go 1.19).  The definitions below are that loop, so they are `sort.Slice` on
pools of at most 12 players.  On longer slices the library runs pdqsort, which
orders players of equal rating differently; every statement below that reaches
`sortSlice` is about a pool of at most 12 players. -/

/-- The comparison passed to `sort.Slice`:
`m.PlayerPool[i].Rating > m.PlayerPool[j].Rating`. -/
def less (data : List Player) (i j : Nat) : Bool :=
  match data[i]?, data[j]? with
  | some a, some b => decide (a.Rating > b.Rating)
  | _, _ => false

/-- The swapper of `sort.Slice`: exchange the elements at `i` and `j`. -/
def swap (data : List Player) (i j : Nat) : List Player :=
  match data[i]?, data[j]? with
  | some a, some b => (data.set i b).set j a
  | _, _ => data

/-- The inner loop `for j := i; j > 0 && Less(j, j-1); j-- { Swap(j, j-1) }`,
started at `j`. -/
def insertionInner (data : List Player) : Nat → List Player
  | 0 => data
  | j + 1 =>
    if less data (j + 1) j then insertionInner (swap data (j + 1) j) j else data

/-- The outer loop `for i := 1; i < len; i++` of the insertion sort. -/
def insertionSortFunc (data : List Player) : List Player :=
  (List.range' 1 (data.length - 1)).foldl insertionInner data

/-- The pool after `sort.Slice(m.PlayerPool, less)`, for a pool of at most 12
players. -/
def sortSlice (pool : List Player) : List Player :=
  insertionSortFunc pool

/-! ## createMatch and AddPlayer -/

/-- The local variables of the assignment loop of `createMatch`, and the
lines it has printed (player id and team number of each `Printf`). -/
structure Split where
  team1 : List Player
  team2 : List Player
  team1Rating : Int
  team2Rating : Int
  printed : List (String × Nat)
deriving DecidableEq

/-- The loop variables before the first iteration:
`var team1, team2 []Player; team1Rating, team2Rating := 0, 0`. -/
def Split.init : Split :=
  { team1 := [], team2 := [], team1Rating := 0, team2Rating := 0, printed := [] }

/-- One iteration of `for i, player := range m.PlayerPool[:10]`: the player
joins team1 when `team1Rating <= team2Rating` and team2 otherwise, then the
line `Assigning player <Id> to team <(i%2)+1>` is printed. -/
def assign (s : Split) (ip : Nat × Player) : Split :=
  let i := ip.1
  let player := ip.2
  let s1 : Split :=
    if s.team1Rating ≤ s.team2Rating then
      { s with
        team1 := s.team1 ++ [player]
        team1Rating := wrapInt (s.team1Rating + player.Rating) }
    else
      { s with
        team2 := s.team2 ++ [player]
        team2Rating := wrapInt (s.team2Rating + player.Rating) }
  { s1 with printed := s1.printed ++ [(player.Id, i % 2 + 1)] }

/-- The assignment loop run over a batch: the loop variables after the last
iteration. -/
def assignAll (batch : List Player) : Split :=
  batch.enum.foldl assign Split.init

/-- The loop variables after the first `k` iterations over the batch. -/
def assignUpTo (batch : List Player) (k : Nat) : Split :=
  assignAll (batch.take k)

/-- The method `createMatch`: sort the whole pool, split its first ten players
into two teams, keep the rest as the pool.  It is called only with at least
ten players in the pool (the slice expressions need them). -/
def createMatch (m : Matchmaker) (_h : 10 ≤ m.PlayerPool.length) : Matchmaker × Match :=
  let pool := sortSlice m.PlayerPool
  let s := assignAll (pool.take 10)
  ({ PlayerPool := pool.drop 10 }, { Team1 := s.team1, Team2 := s.team2 })

/-- The lines `createMatch` prints while it assigns the players. -/
def createMatchPrinted (m : Matchmaker) : List (String × Nat) :=
  (assignAll ((sortSlice m.PlayerPool).take 10)).printed

/-- The players that the lines printed by `createMatch` name for team `n`: the
i-th line is printed for the i-th player of the sorted batch. -/
def printedTeam (m : Matchmaker) (n : Nat) : List Player :=
  ((((sortSlice m.PlayerPool).take 10).zip (createMatchPrinted m)).filter
    (fun x => decide (x.2.2 = n))).map (fun x => x.1)

/-- The method `AddPlayer`: append the player, and create a match when the
pool holds ten players or more.  The result is the new state and the two
values returned, `(*Match, bool)` with `none` for `nil`. -/
def AddPlayer (m : Matchmaker) (player : Player) : Matchmaker × Option Match × Bool :=
  let m1 : Matchmaker := { PlayerPool := m.PlayerPool ++ [player] }
  if h : 10 ≤ m1.PlayerPool.length then
    let r := createMatch m1 h
    (r.1, some r.2, true)
  else
    (m1, none, false)

/-- The global `matchmaker` at start: `&Matchmaker{PlayerPool: []Player{}}`. -/
def matchmaker : Matchmaker := { PlayerPool := [] }

/-- Successive `AddPlayer` calls: the final state and what each call returned. -/
def addPlayers (m : Matchmaker) : List Player → Matchmaker × List (Option Match × Bool)
  | [] => (m, [])
  | p :: ps =>
    let r := AddPlayer m p
    let rest := addPlayers r.1 ps
    (rest.1, r.2 :: rest.2)

/-! ## Reference definitions used by the statements -/

/-- Sum of the ratings of a team, as a mathematical integer. -/
def totalRating (team : List Player) : Int :=
  (team.map Player.Rating).sum

/-- Sum of the ratings of a team in Go `int` arithmetic, adding the players
one by one. -/
def ratingSum (team : List Player) : Int :=
  team.foldl (fun acc p => wrapInt (acc + p.Rating)) 0

/-- Sum of the absolute values of the ratings of a batch. -/
def absTotal (batch : List Player) : Int :=
  (batch.map (fun p => |p.Rating|)).sum

/-- The maximum single rating in a batch (0 for the empty batch). -/
def maxRating : List Player → Int
  | [] => 0
  | [p] => p.Rating
  | p :: q :: ps => max p.Rating (maxRating (q :: ps))

/-- Descending order of ratings as a boolean comparison: a player comes no
later than every player of lower or equal rating. -/
def descRating (a b : Player) : Bool := decide (a.Rating ≥ b.Rating)

/-- One step of the reference walk: the player joins the team whose rating
sum is lower, team1 when the sums are equal, at the end of that team. -/
def referenceStep (t : List Player × List Player) (p : Player) : List Player × List Player :=
  if ratingSum t.1 ≤ ratingSum t.2 then (t.1 ++ [p], t.2) else (t.1, t.2 ++ [p])

/-- The reference split of a batch: stable sort by rating descending, then
the greedy walk over the sorted list. -/
def referenceSplit (batch : List Player) : List Player × List Player :=
  (batch.mergeSort descRating).foldl referenceStep ([], [])

/-- One step of the reference walk with the rating sums taken as mathematical
integers. -/
def exactStep (t : List Player × List Player) (p : Player) : List Player × List Player :=
  if totalRating t.1 ≤ totalRating t.2 then (t.1 ++ [p], t.2) else (t.1, t.2 ++ [p])

/-- The reference split of a batch with the rating sums taken as mathematical
integers. -/
def exactSplit (batch : List Player) : List Player × List Player :=
  (batch.mergeSort descRating).foldl exactStep ([], [])

/-- The players of all matches returned by a sequence of calls, in order. -/
def matchedPlayers : List (Option Match × Bool) → List Player
  | [] => []
  | (some mt, _) :: rest => mt.Team1 ++ mt.Team2 ++ matchedPlayers rest
  | (none, _) :: rest => matchedPlayers rest

/-! ## The client registry and NotifyMatchReady -/

/-- A registered client (`type WebSocketClient struct`): `conn` names the
WebSocket connection. -/
structure WebSocketClient where
  conn : Nat
  id : String
deriving DecidableEq

/-- The global `clients` map, `map[*WebSocketClient]bool`: its keys are
pointers, so each entry is the address of a client and the client stored
there; `next` is the address of the next allocation.  The list order stands
for one iteration order of the map. -/
structure Registry where
  clients : List (Nat × WebSocketClient)
  next : Nat
deriving DecidableEq

/-- The registry at start: `make(map[*WebSocketClient]bool)`. -/
def Registry.empty : Registry := { clients := [], next := 0 }

/-- `RegisterWebSocket` up to the read loop, for a connection that was
upgraded: allocate `&WebSocketClient{conn, id}` and set `clients[client] = true`.
Returns the new registry and the address of the client. -/
def RegisterWebSocket (r : Registry) (conn : Nat) (playerId : String) : Registry × Nat :=
  ({ clients := r.clients ++ [(r.next, { conn := conn, id := playerId })], next := r.next + 1 },
    r.next)

/-- The deferred function of `RegisterWebSocket`, run when the read loop ends:
`delete(clients, client)`. -/
def unregisterWebSocket (r : Registry) (client : Nat) : Registry :=
  { r with clients := r.clients.filter (fun e => e.1 ≠ client) }

/-- The inner loop of `NotifyMatchReady` for one client: walk the players and
write the match to the client at the first player with the client's id, then
`break`.  The result is the list of `WriteJSON` calls: connection and value. -/
def notifyClient (client : WebSocketClient) (mt : Match) : List Player → List (Nat × Match)
  | [] => []
  | player :: rest =>
    if client.id = player.Id then [(client.conn, mt)] else notifyClient client mt rest

/-- The function `NotifyMatchReady`: for each client of the map, the inner loop
over `append(match.Team1, match.Team2...)`.  The result is the list of
`WriteJSON` calls made. -/
def NotifyMatchReady (r : Registry) (mt : Match) : List (Nat × Match) :=
  r.clients.flatMap (fun e => notifyClient e.2 mt (mt.Team1 ++ mt.Team2))

/-! ## handleMatchmaking -/

/-- A request as `handleMatchmaking` reads it: the method, and the result of
`json.NewDecoder(r.Body).Decode(&player)`, `none` when decoding fails.  A JSON
object that omits a field decodes with that field at its zero value. -/
structure Request where
  Method : String
  Body : Option Player
deriving DecidableEq

/-- What `handleMatchmaking` writes to the response. -/
inductive Response where
  | error (message : String) (status : Nat)
  | matchCreated (mt : Option Match)
  | accepted (text : String)
deriving DecidableEq

/-- The handler `handleMatchmaking`, on the pool `m`. -/
def handleMatchmaking (m : Matchmaker) (r : Request) : Matchmaker × Response :=
  if r.Method ≠ "POST" then
    (m, Response.error "Invalid request method" 405)
  else
    match r.Body with
    | none => (m, Response.error "Invalid JSON" 400)
    | some player =>
      let res := AddPlayer m player
      if res.2.2 then
        (res.1, Response.matchCreated res.2.1)
      else
        (res.1, Response.accepted
          ("Player " ++ player.Id ++ " added to the pool. Waiting for more players..."))

/-! ## Auxiliary definitions for the proofs -/

/-- Ascending order of ratings: the order of the sorted prefix read from the
right. -/
def ascRating (a b : Player) : Prop := a.Rating ≤ b.Rating

instance : DecidableRel ascRating := fun a b => inferInstanceAs (Decidable (a.Rating ≤ b.Rating))

instance : IsTotal Player ascRating := ⟨fun a b => Int.le_total a.Rating b.Rating⟩

instance : IsTrans Player ascRating := ⟨fun _ _ _ h1 h2 => Int.le_trans h1 h2⟩

/-- The teams and rating sums of the loop variables, without the printed lines. -/
def Split.core (s : Split) : List Player × List Player × Int × Int :=
  (s.team1, s.team2, s.team1Rating, s.team2Rating)

/-- One iteration of the loop on the teams and rating sums alone. -/
def coreStep (c : List Player × List Player × Int × Int) (p : Player) :
    List Player × List Player × Int × Int :=
  if c.2.2.1 ≤ c.2.2.2 then (c.1 ++ [p], c.2.1, wrapInt (c.2.2.1 + p.Rating), c.2.2.2)
  else (c.1, c.2.1 ++ [p], c.2.2.1, wrapInt (c.2.2.2 + p.Rating))

/-! ## Concrete inputs -/

/-- The players `p0..p9` with ratings `[50,40,30,20,10,90,80,70,60,100]`, in
submission order. -/
def scenario : List Player :=
  [⟨"p0", 50, ""⟩, ⟨"p1", 40, ""⟩, ⟨"p2", 30, ""⟩, ⟨"p3", 20, ""⟩, ⟨"p4", 10, ""⟩,
   ⟨"p5", 90, ""⟩, ⟨"p6", 80, ""⟩, ⟨"p7", 70, ""⟩, ⟨"p8", 60, ""⟩, ⟨"p9", 100, ""⟩]

/-- Twenty submissions: the scenario twice, the second time as `q0..q9`. -/
def twoRounds : List Player :=
  scenario ++ scenario.map (fun p => { p with Id := "q" ++ p.Id })

/-- One strong player and nine weak ones. -/
def skewed : List Player :=
  [⟨"p0", 100, ""⟩, ⟨"p1", 1, ""⟩, ⟨"p2", 1, ""⟩, ⟨"p3", 1, ""⟩, ⟨"p4", 1, ""⟩,
   ⟨"p5", 1, ""⟩, ⟨"p6", 1, ""⟩, ⟨"p7", 1, ""⟩, ⟨"p8", 1, ""⟩, ⟨"p9", 1, ""⟩]

/-- One player rated 10 and nine players rated -10. -/
def negatives : List Player :=
  [⟨"p0", 10, ""⟩, ⟨"p1", -10, ""⟩, ⟨"p2", -10, ""⟩, ⟨"p3", -10, ""⟩, ⟨"p4", -10, ""⟩,
   ⟨"p5", -10, ""⟩, ⟨"p6", -10, ""⟩, ⟨"p7", -10, ""⟩, ⟨"p8", -10, ""⟩, ⟨"p9", -10, ""⟩]

/-- Eight players rated `2^62` and two players rated 0. -/
def huge : List Player :=
  [⟨"p0", 4611686018427387904, ""⟩, ⟨"p1", 4611686018427387904, ""⟩,
   ⟨"p2", 4611686018427387904, ""⟩, ⟨"p3", 4611686018427387904, ""⟩,
   ⟨"p4", 4611686018427387904, ""⟩, ⟨"p5", 4611686018427387904, ""⟩,
   ⟨"p6", 4611686018427387904, ""⟩, ⟨"p7", 4611686018427387904, ""⟩,
   ⟨"p8", 0, ""⟩, ⟨"p9", 0, ""⟩]

/-- A pool that already holds ten players `q0..q9`, all rated 0: a value
`&Matchmaker{PlayerPool: ...}` built directly, since `AddPlayer` alone never
leaves ten players waiting. -/
def tenWaiting : Matchmaker :=
  { PlayerPool :=
    [⟨"q0", 0, ""⟩, ⟨"q1", 0, ""⟩, ⟨"q2", 0, ""⟩, ⟨"q3", 0, ""⟩, ⟨"q4", 0, ""⟩,
     ⟨"q5", 0, ""⟩, ⟨"q6", 0, ""⟩, ⟨"q7", 0, ""⟩, ⟨"q8", 0, ""⟩, ⟨"q9", 0, ""⟩] }

/-- An eleventh player, rated 1. -/
def latecomer : Player := ⟨"late", 1, ""⟩

/-- A match with `p1` on team 1. -/
def matchWithP1 : Match :=
  { Team1 := [⟨"p1", 40, ""⟩, ⟨"p2", 30, ""⟩], Team2 := [⟨"p3", 20, ""⟩, ⟨"p4", 10, ""⟩] }

/-- The player decoded from a body that gives only a rating of 5: no identity. -/
def anonymous : Player := ⟨"", 5, ""⟩

/-! ## Lemmas on sort.Slice -/

theorem insertionInner_append (pre : List Player) (x : Player) (post : List Player) :
    insertionInner (pre ++ x :: post) pre.length
      = (List.orderedInsert ascRating x pre.reverse).reverse ++ post := by
  induction pre using List.reverseRecOn generalizing post with
  | nil => simp [insertionInner]
  | append_singleton pre y ih =>
    have hlen : (pre ++ [y]).length = pre.length + 1 := by simp
    have e1 : (pre ++ [y] ++ x :: post)[pre.length + 1]? = some x := by
      rw [List.append_assoc, List.getElem?_append_right (by omega)]
      simp
    have e0 : (pre ++ [y] ++ x :: post)[pre.length]? = some y := by
      rw [List.append_assoc, List.getElem?_append_right (by omega)]
      simp
    rw [hlen, insertionInner]
    simp only [less, swap, e1, e0]
    by_cases hxy : x.Rating > y.Rating
    · have hs : ((pre ++ [y] ++ x :: post).set (pre.length + 1) y).set pre.length x
          = pre ++ x :: (y :: post) := by
        simp [List.set_append]
      simp only [hxy, decide_True, if_true, hs, ih]
      have : ¬ ascRating x y := by unfold ascRating; omega
      simp [List.orderedInsert, this]
    · have : ascRating x y := by unfold ascRating; omega
      simp [hxy, List.orderedInsert, this]

theorem foldl_insertionInner (rest done : List Player) :
    (List.range' done.length rest.length).foldl insertionInner (done ++ rest)
      = (rest.foldl (fun racc x => List.orderedInsert ascRating x racc) done.reverse).reverse := by
  induction rest generalizing done with
  | nil => simp
  | cons x rest ih =>
    have hl : ((List.orderedInsert ascRating x done.reverse).reverse).length = done.length + 1 := by
      simp [List.orderedInsert_length]
    simp only [List.length_cons, List.range'_succ, List.foldl_cons, insertionInner_append]
    rw [← hl, ih]
    simp

theorem insertionSort_eq_foldr (l : List Player) :
    List.insertionSort ascRating l = l.foldr (List.orderedInsert ascRating) [] := by
  induction l with
  | nil => rfl
  | cons a l ih => simp [List.insertionSort, ih]

/-- Closed form of the insertion sort: an ascending stable insertion sort of
the reversed slice, reversed. -/
theorem sortSlice_eq (l : List Player) :
    sortSlice l = (List.insertionSort ascRating l.reverse).reverse := by
  cases l with
  | nil => simp [sortSlice, insertionSortFunc]
  | cons x rest =>
    have h := foldl_insertionInner rest [x]
    simp only [List.length_singleton, List.singleton_append, List.reverse_singleton] at h
    simp only [sortSlice, insertionSortFunc, List.length_cons, Nat.add_sub_cancel, h]
    congr 1
    rw [insertionSort_eq_foldr, List.foldr_reverse]
    simp [List.orderedInsert]

theorem sortSlice_perm (l : List Player) : (sortSlice l).Perm l := by
  rw [sortSlice_eq]
  exact (List.reverse_perm _).trans ((List.perm_insertionSort _ _).trans (List.reverse_perm l))

theorem sortSlice_length (l : List Player) : (sortSlice l).length = l.length :=
  (sortSlice_perm l).length_eq

theorem sortSlice_sorted (l : List Player) :
    (sortSlice l).Pairwise (fun a b => a.Rating ≥ b.Rating) := by
  rw [sortSlice_eq, List.pairwise_reverse]
  exact List.sorted_insertionSort ascRating l.reverse

theorem filter_orderedInsert (k : Int) (a : Player) (l : List Player) :
    (List.orderedInsert ascRating a l).filter (fun p => decide (p.Rating = k))
      = (a :: l).filter (fun p => decide (p.Rating = k)) := by
  induction l with
  | nil => simp
  | cons b l ih =>
    by_cases hab : ascRating a b
    · simp [List.orderedInsert, hab]
    · have hlt : b.Rating < a.Rating := by unfold ascRating at hab; omega
      simp only [List.orderedInsert, hab, if_false]
      by_cases hak : a.Rating = k
      · have hbk : ¬ b.Rating = k := by omega
        simp only [List.filter_cons, hbk, hak, decide_True, decide_False, if_true] at ih ⊢
        simpa using ih
      · by_cases hbk : b.Rating = k
        · simp only [List.filter_cons, hbk, hak, decide_True, decide_False, if_true] at ih ⊢
          simpa using ih
        · simp only [List.filter_cons, hbk, hak, decide_True, decide_False, if_true] at ih ⊢
          simpa using ih

theorem filter_insertionSort (k : Int) (l : List Player) :
    (List.insertionSort ascRating l).filter (fun p => decide (p.Rating = k))
      = l.filter (fun p => decide (p.Rating = k)) := by
  induction l with
  | nil => rfl
  | cons a l ih =>
    rw [List.insertionSort, filter_orderedInsert, List.filter_cons, List.filter_cons, ih]

/-- Stability of `sort.Slice` on short slices: the players of each rating keep
their order. -/
theorem sortSlice_filter (k : Int) (l : List Player) :
    (sortSlice l).filter (fun p => decide (p.Rating = k))
      = l.filter (fun p => decide (p.Rating = k)) := by
  rw [sortSlice_eq, List.filter_reverse, filter_insertionSort, List.filter_reverse,
    List.reverse_reverse]

/-- A list sorted by rating descending is determined by the order of the
players within each rating. -/
theorem eq_of_sorted_of_filter (l1 l2 : List Player)
    (h1 : l1.Pairwise (fun a b => a.Rating ≥ b.Rating))
    (h2 : l2.Pairwise (fun a b => a.Rating ≥ b.Rating))
    (hf : ∀ k : Int, l1.filter (fun p => decide (p.Rating = k))
      = l2.filter (fun p => decide (p.Rating = k))) : l1 = l2 := by
  induction l1 generalizing l2 with
  | nil =>
    cases l2 with
    | nil => rfl
    | cons b t2 =>
      have := hf b.Rating
      simp at this
  | cons a t1 ih =>
    cases l2 with
    | nil =>
      have := hf a.Rating
      simp at this
    | cons b t2 =>
      have ha : a ∈ (b :: t2).filter (fun p => decide (p.Rating = a.Rating)) := by
        rw [← hf]; simp
      have hb : b ∈ (a :: t1).filter (fun p => decide (p.Rating = b.Rating)) := by
        rw [hf]; simp
      have hab : a.Rating ≤ b.Rating := by
        have := (List.mem_filter.mp ha).1
        rcases List.mem_cons.mp this with h | h
        · rw [h]
        · exact (List.pairwise_cons.mp h2).1 a h
      have hba : b.Rating ≤ a.Rating := by
        have := (List.mem_filter.mp hb).1
        rcases List.mem_cons.mp this with h | h
        · rw [h]
        · exact (List.pairwise_cons.mp h1).1 b h
      have hr : b.Rating = a.Rating := by omega
      have h0 := hf a.Rating
      simp only [List.filter_cons, hr, decide_True, if_true] at h0
      have hab' : a = b := (List.cons.inj h0).1
      subst hab'
      congr 1
      apply ih t2 (List.pairwise_cons.mp h1).2 (List.pairwise_cons.mp h2).2
      intro k
      have hk := hf k
      simp only [List.filter_cons] at hk
      by_cases hak : a.Rating = k
      · simp only [hak, decide_True, if_true] at hk
        exact (List.cons.inj hk).2
      · simp only [hak, decide_False] at hk
        simpa using hk


theorem mergeSort_filter (k : Int) (l : List Player) :
    (l.mergeSort descRating).filter (fun p => decide (p.Rating = k))
      = l.filter (fun p => decide (p.Rating = k)) := by
  have htrans : ∀ a b c : Player, descRating a b → descRating b c → descRating a c := by
    intro a b c; simp only [descRating, decide_eq_true_eq]; omega
  have htotal : ∀ a b : Player, descRating a b || descRating b a := by
    intro a b; simp only [descRating, Bool.or_eq_true, decide_eq_true_eq]; omega
  have hc : (l.filter (fun p => decide (p.Rating = k))).Pairwise (fun a b => descRating a b) := by
    rw [List.pairwise_iff_forall_sublist]
    intro a b hab
    have ha := hab.subset (List.mem_cons_self _ _)
    have hb := hab.subset (List.mem_cons_of_mem _ (List.mem_cons_self _ _))
    simp only [List.mem_filter, decide_eq_true_eq] at ha hb
    simp only [descRating, decide_eq_true_eq]
    omega
  have hsub := List.sublist_mergeSort htrans htotal hc (List.filter_sublist l)
  have hsub2 := hsub.filter (fun p => decide (p.Rating = k))
  rw [List.filter_filter] at hsub2
  simp only [Bool.and_self] at hsub2
  have hlen := ((List.mergeSort_perm l descRating).filter (fun p => decide (p.Rating = k))).length_eq
  exact (hsub2.eq_of_length hlen.symm).symm

/-- On the slices `createMatch` sorts in place, `sort.Slice` returns the stable
sort by rating descending. -/
theorem sortSlice_eq_mergeSort (l : List Player) : sortSlice l = l.mergeSort descRating := by
  apply eq_of_sorted_of_filter _ _ (sortSlice_sorted l)
  · have htrans : ∀ a b c : Player, descRating a b → descRating b c → descRating a c := by
      intro a b c; simp only [descRating, decide_eq_true_eq]; omega
    have htotal : ∀ a b : Player, descRating a b || descRating b a := by
      intro a b; simp only [descRating, Bool.or_eq_true, decide_eq_true_eq]; omega
    have := List.sorted_mergeSort htrans htotal l
    refine this.imp ?_
    intro a b h
    simpa [descRating] using h
  · intro k
    rw [sortSlice_filter, mergeSort_filter]

/-! ## Lemmas on the assignment loop -/

theorem core_assign (s : Split) (i : Nat) (p : Player) :
    (assign s (i, p)).core = coreStep s.core p := by
  unfold assign coreStep Split.core
  by_cases h : s.team1Rating ≤ s.team2Rating <;> simp [h]

theorem core_foldl_assign (l : List Player) (n : Nat) (s : Split) :
    ((l.enumFrom n).foldl assign s).core = l.foldl coreStep s.core := by
  induction l generalizing n s with
  | nil => rfl
  | cons p l ih => simp only [List.enumFrom_cons, List.foldl_cons, ih, core_assign]

theorem core_assignAll (batch : List Player) :
    (assignAll batch).core = batch.foldl coreStep ([], [], 0, 0) := by
  unfold assignAll List.enum
  rw [core_foldl_assign]; rfl

theorem coreStep_perm (l : List Player) (c : List Player × List Player × Int × Int) :
    ((l.foldl coreStep c).1 ++ (l.foldl coreStep c).2.1).Perm (c.1 ++ c.2.1 ++ l) := by
  induction l generalizing c with
  | nil => simp
  | cons p l ih =>
    rw [List.foldl_cons]
    refine (ih _).trans ?_
    unfold coreStep
    by_cases h : c.2.2.1 ≤ c.2.2.2
    · simp only [h, if_true]
      have : (c.1 ++ [p] ++ c.2.1).Perm (c.1 ++ c.2.1 ++ [p]) := by
        rw [List.append_assoc, List.append_assoc]
        exact List.Perm.append_left _ List.perm_append_comm
      simpa using this.append_right l
    · simp only [h, if_false]
      simp

/-- The two teams together are a permutation of the batch. -/
theorem assignAll_perm (batch : List Player) :
    ((assignAll batch).team1 ++ (assignAll batch).team2).Perm batch := by
  have h := coreStep_perm batch ([], [], 0, 0)
  rw [← core_assignAll] at h
  simpa [Split.core] using h

theorem ratingSum_append (t : List Player) (p : Player) :
    ratingSum (t ++ [p]) = wrapInt (ratingSum t + p.Rating) := by
  simp [ratingSum, List.foldl_append]

theorem coreStep_reference (l : List Player) (c : List Player × List Player × Int × Int)
    (h1 : c.2.2.1 = ratingSum c.1) (h2 : c.2.2.2 = ratingSum c.2.1) :
    ((l.foldl coreStep c).1, (l.foldl coreStep c).2.1) = l.foldl referenceStep (c.1, c.2.1) := by
  induction l generalizing c with
  | nil => rfl
  | cons p l ih =>
    rw [List.foldl_cons, List.foldl_cons]
    by_cases h : c.2.2.1 ≤ c.2.2.2
    · have hs : coreStep c p = (c.1 ++ [p], c.2.1, wrapInt (c.2.2.1 + p.Rating), c.2.2.2) := by
        simp [coreStep, h]
      have hr : referenceStep (c.1, c.2.1) p = (c.1 ++ [p], c.2.1) := by
        simp only [referenceStep, ← h1, ← h2, h, if_true]
      rw [hs, hr]
      exact ih _ (by simp [ratingSum_append, h1]) (by simpa using h2)
    · have hs : coreStep c p = (c.1, c.2.1 ++ [p], c.2.2.1, wrapInt (c.2.2.2 + p.Rating)) := by
        simp [coreStep, h]
      have hr : referenceStep (c.1, c.2.1) p = (c.1, c.2.1 ++ [p]) := by
        simp only [referenceStep, ← h1, ← h2, h, if_false]
      rw [hs, hr]
      exact ih _ (by simpa using h1) (by simp [ratingSum_append, h2])

/-- The loop of `createMatch` is the reference walk. -/
theorem assignAll_reference (batch : List Player) :
    ((assignAll batch).team1, (assignAll batch).team2) = batch.foldl referenceStep ([], []) := by
  have h := coreStep_reference batch ([], [], 0, 0) rfl rfl
  rw [← core_assignAll] at h
  simpa [Split.core] using h

/-! ## Lemmas on the rating sums -/

theorem wrapInt_eq (x : Int) (h1 : minInt ≤ x) (h2 : x ≤ maxInt) : wrapInt x = x := by
  unfold minInt at h1
  unfold maxInt at h2
  unfold wrapInt
  omega

theorem totalRating_append (t : List Player) (p : Player) :
    totalRating (t ++ [p]) = totalRating t + p.Rating := by
  simp [totalRating]

theorem totalRating_cons (p : Player) (l : List Player) :
    totalRating (p :: l) = p.Rating + totalRating l := by
  simp [totalRating]

theorem totalRating_nonneg (l : List Player) (h : ∀ p ∈ l, 0 ≤ p.Rating) :
    0 ≤ totalRating l := by
  induction l with
  | nil => simp [totalRating]
  | cons p l ih =>
    rw [totalRating_cons]
    have := h p (List.mem_cons_self _ _)
    have := ih (fun q hq => h q (List.mem_cons_of_mem _ hq))
    omega

theorem totalRating_take_le (l : List Player) (h : ∀ p ∈ l, 0 ≤ p.Rating) (k : Nat) :
    totalRating (l.take k) ≤ totalRating l := by
  induction l generalizing k with
  | nil => simp
  | cons p l ih =>
    cases k with
    | zero =>
      simpa [totalRating] using totalRating_nonneg (p :: l) h
    | succ k =>
      rw [List.take_succ_cons, totalRating_cons, totalRating_cons]
      have := ih (fun q hq => h q (List.mem_cons_of_mem _ hq)) k
      omega

theorem totalRating_perm {l1 l2 : List Player} (h : l1.Perm l2) :
    totalRating l1 = totalRating l2 :=
  (h.map Player.Rating).sum_eq

theorem le_maxRating (l : List Player) (p : Player) (h : p ∈ l) : p.Rating ≤ maxRating l := by
  induction l with
  | nil => simp at h
  | cons a l ih =>
    cases l with
    | nil =>
      simp only [List.mem_singleton] at h
      simp [maxRating, h]
    | cons b l =>
      rw [maxRating]
      rcases List.mem_cons.mp h with h | h
      · rw [h]; exact le_max_left _ _
      · exact le_trans (ih h) (le_max_right _ _)

/-- The greedy bound, one fold at a time: with ratings between 0 and `M` and
no overflow, the sums stay the mathematical sums of the teams and never differ
by more than `M`. -/
theorem coreStep_bound (M : Int) (l : List Player) (c : List Player × List Player × Int × Int)
    (hl : ∀ p ∈ l, 0 ≤ p.Rating ∧ p.Rating ≤ M)
    (h1 : c.2.2.1 = totalRating c.1) (h2 : c.2.2.2 = totalRating c.2.1)
    (hn1 : 0 ≤ c.2.2.1) (hn2 : 0 ≤ c.2.2.2)
    (hd : |c.2.2.1 - c.2.2.2| ≤ M)
    (hs : c.2.2.1 + c.2.2.2 + totalRating l ≤ maxInt) :
    (l.foldl coreStep c).2.2.1 = totalRating (l.foldl coreStep c).1
      ∧ (l.foldl coreStep c).2.2.2 = totalRating (l.foldl coreStep c).2.1
      ∧ |(l.foldl coreStep c).2.2.1 - (l.foldl coreStep c).2.2.2| ≤ M := by
  induction l generalizing c with
  | nil => exact ⟨h1, h2, hd⟩
  | cons p l ih =>
    rw [List.foldl_cons]
    have hp := hl p (List.mem_cons_self _ _)
    have hl' : ∀ q ∈ l, 0 ≤ q.Rating ∧ q.Rating ≤ M := fun q hq => hl q (List.mem_cons_of_mem _ hq)
    have hrest := totalRating_nonneg l (fun q hq => (hl' q hq).1)
    rw [totalRating_cons] at hs
    rw [abs_le] at hd
    have hmin : minInt ≤ 0 := by decide
    by_cases h : c.2.2.1 ≤ c.2.2.2
    · have hw : wrapInt (c.2.2.1 + p.Rating) = c.2.2.1 + p.Rating :=
        wrapInt_eq _ (by omega) (by omega)
      have hs' : coreStep c p = (c.1 ++ [p], c.2.1, c.2.2.1 + p.Rating, c.2.2.2) := by
        simp [coreStep, h, hw]
      rw [hs']
      apply ih _ hl'
      · simp [totalRating_append, h1]
      · simpa using h2
      · simp only; omega
      · simpa using hn2
      · simp only [abs_le]; omega
      · simp only; omega
    · have hw : wrapInt (c.2.2.2 + p.Rating) = c.2.2.2 + p.Rating :=
        wrapInt_eq _ (by omega) (by omega)
      have hs' : coreStep c p = (c.1, c.2.1 ++ [p], c.2.2.1, c.2.2.2 + p.Rating) := by
        simp [coreStep, h, hw]
      rw [hs']
      apply ih _ hl'
      · simpa using h1
      · simp [totalRating_append, h2]
      · simpa using hn1
      · simp only; omega
      · simp only [abs_le]; omega
      · simp only; omega

/-- The greedy bound for the loop of `createMatch` stopped after `k` iterations
over a batch of non-negative ratings whose total fits a Go `int`. -/
theorem assignUpTo_bound (batch : List Player) (M : Int) (k : Nat)
    (hl : ∀ p ∈ batch, 0 ≤ p.Rating ∧ p.Rating ≤ M) (hM : 0 ≤ M)
    (hs : totalRating batch ≤ maxInt) :
    (assignUpTo batch k).team1Rating = totalRating (assignUpTo batch k).team1
      ∧ (assignUpTo batch k).team2Rating = totalRating (assignUpTo batch k).team2
      ∧ |(assignUpTo batch k).team1Rating - (assignUpTo batch k).team2Rating| ≤ M := by
  have hl' : ∀ p ∈ batch.take k, 0 ≤ p.Rating ∧ p.Rating ≤ M :=
    fun p hp => hl p (List.mem_of_mem_take hp)
  have hle := totalRating_take_le batch (fun p hp => (hl p hp).1) k
  have h := coreStep_bound M (batch.take k) ([], [], 0, 0) hl' rfl rfl (le_refl _) (le_refl _)
    (by simpa using hM) (by simp only; omega)
  rw [← core_assignAll] at h
  simpa [Split.core, assignUpTo] using h

theorem absTotal_cons (p : Player) (l : List Player) :
    absTotal (p :: l) = |p.Rating| + absTotal l := by
  simp [absTotal]

theorem absTotal_nonneg (l : List Player) : 0 ≤ absTotal l := by
  induction l with
  | nil => simp [absTotal]
  | cons p l ih =>
    rw [absTotal_cons]
    have := abs_nonneg p.Rating
    omega

theorem absTotal_perm {l1 l2 : List Player} (h : l1.Perm l2) : absTotal l1 = absTotal l2 :=
  (h.map (fun p : Player => |p.Rating|)).sum_eq

/-- Without overflow the loop of `createMatch` is the reference walk on the
mathematical rating sums. -/
theorem coreStep_exact (l : List Player) (c : List Player × List Player × Int × Int)
    (h1 : c.2.2.1 = totalRating c.1) (h2 : c.2.2.2 = totalRating c.2.1)
    (hs : |c.2.2.1| + |c.2.2.2| + absTotal l ≤ maxInt) :
    ((l.foldl coreStep c).1, (l.foldl coreStep c).2.1) = l.foldl exactStep (c.1, c.2.1) := by
  induction l generalizing c with
  | nil => rfl
  | cons p l ih =>
    rw [List.foldl_cons, List.foldl_cons]
    have hrest := absTotal_nonneg l
    rw [absTotal_cons] at hs
    have hmax : maxInt = 9223372036854775807 := rfl
    have hmin : minInt = -9223372036854775808 := rfl
    have a1 := abs_nonneg c.2.2.1
    have a2 := abs_nonneg c.2.2.2
    have b1 := le_abs_self c.2.2.1
    have b2 := le_abs_self c.2.2.2
    have c1 := neg_abs_le c.2.2.1
    have c2 := neg_abs_le c.2.2.2
    have bp := le_abs_self p.Rating
    have cp := neg_abs_le p.Rating
    by_cases h : c.2.2.1 ≤ c.2.2.2
    · have hw : wrapInt (c.2.2.1 + p.Rating) = c.2.2.1 + p.Rating :=
        wrapInt_eq _ (by omega) (by omega)
      have hs' : coreStep c p = (c.1 ++ [p], c.2.1, c.2.2.1 + p.Rating, c.2.2.2) := by
        simp [coreStep, h, hw]
      have hr : exactStep (c.1, c.2.1) p = (c.1 ++ [p], c.2.1) := by
        simp only [exactStep, ← h1, ← h2, h, if_true]
      have habs := abs_add c.2.2.1 p.Rating
      rw [hs', hr]
      apply ih
      · simp [totalRating_append, h1]
      · simpa using h2
      · simp only; omega
    · have hw : wrapInt (c.2.2.2 + p.Rating) = c.2.2.2 + p.Rating :=
        wrapInt_eq _ (by omega) (by omega)
      have hs' : coreStep c p = (c.1, c.2.1 ++ [p], c.2.2.1, c.2.2.2 + p.Rating) := by
        simp [coreStep, h, hw]
      have hr : exactStep (c.1, c.2.1) p = (c.1, c.2.1 ++ [p]) := by
        simp only [exactStep, ← h1, ← h2, h, if_false]
      have habs := abs_add c.2.2.2 p.Rating
      rw [hs', hr]
      apply ih
      · simpa using h1
      · simp [totalRating_append, h2]
      · simp only; omega

/-! ## Lemmas on AddPlayer -/

theorem AddPlayer_waiting (pool : List Player) (p : Player) (h : pool.length + 1 < 10) :
    AddPlayer ⟨pool⟩ p = (⟨pool ++ [p]⟩, none, false) := by
  have : ¬ 10 ≤ (pool ++ [p]).length := by
    rw [List.length_append, List.length_singleton]; omega
  unfold AddPlayer
  dsimp only
  rw [dif_neg this]

theorem AddPlayer_formed (pool : List Player) (p : Player) (h : 10 ≤ pool.length + 1) :
    AddPlayer ⟨pool⟩ p
      = (⟨(sortSlice (pool ++ [p])).drop 10⟩,
          some ⟨(assignAll ((sortSlice (pool ++ [p])).take 10)).team1,
            (assignAll ((sortSlice (pool ++ [p])).take 10)).team2⟩, true) := by
  have : 10 ≤ (pool ++ [p]).length := by
    rw [List.length_append, List.length_singleton]; omega
  unfold AddPlayer
  dsimp only
  rw [dif_pos this]
  rfl

theorem addPlayers_inv (ps pool : List Player) (hp : pool.length < 10) :
    (addPlayers ⟨pool⟩ ps).2.length = ps.length
    ∧ (addPlayers ⟨pool⟩ ps).1.PlayerPool
        = (pool ++ ps).drop (10 * ((pool.length + ps.length) / 10))
    ∧ (matchedPlayers (addPlayers ⟨pool⟩ ps).2 ++ (addPlayers ⟨pool⟩ ps).1.PlayerPool).Perm
        (pool ++ ps)
    ∧ ∀ k, k < ps.length →
        ((pool.length + k + 1) % 10 = 0 →
          ∃ mt, (addPlayers ⟨pool⟩ ps).2[k]? = some (some mt, true)
            ∧ (mt.Team1 ++ mt.Team2).Perm
                (((pool ++ ps).drop (pool.length + k + 1 - 10)).take 10))
        ∧ ((pool.length + k + 1) % 10 ≠ 0 →
          (addPlayers ⟨pool⟩ ps).2[k]? = some (none, false)) := by
  induction ps generalizing pool with
  | nil =>
    have h0 : pool.length / 10 = 0 := by omega
    simp [addPlayers, matchedPlayers, h0]
  | cons p ps ih =>
    by_cases hlt : pool.length + 1 < 10
    · obtain ⟨i1, i2, i3, i4⟩ := ih (pool ++ [p]) (by simp; omega)
      have hA := AddPlayer_waiting pool p hlt
      have hlen : (pool ++ [p]).length = pool.length + 1 := by simp
      simp only [addPlayers, hA]
      refine ⟨by simp [i1], ?_, ?_, ?_⟩
      · rw [i2, hlen]
        simp only [List.append_assoc, List.singleton_append, List.length_cons]
        congr 2
        omega
      · simpa [matchedPlayers] using i3
      · intro k hk
        cases k with
        | zero =>
          refine ⟨fun h => by omega, fun _ => by simp⟩
        | succ k =>
          have hk' : k < ps.length := by simpa using hk
          have := i4 k hk'
          rw [hlen] at this
          have e : pool.length + (k + 1) + 1 = pool.length + 1 + k + 1 := by omega
          simpa [e] using this
    · have hfull : pool.length + 1 = 10 := by omega
      obtain ⟨i1, i2, i3, i4⟩ := ih [] (by simp)
      have hA := AddPlayer_formed pool p (by omega)
      have hlen : (sortSlice (pool ++ [p])).length = 10 := by
        rw [sortSlice_length]; simp; omega
      have hdrop : (sortSlice (pool ++ [p])).drop 10 = [] := by
        apply List.drop_eq_nil_of_le; omega
      have htake : (sortSlice (pool ++ [p])).take 10 = sortSlice (pool ++ [p]) := by
        apply List.take_of_length_le; omega
      rw [hdrop, htake] at hA
      have hperm : ((assignAll (sortSlice (pool ++ [p]))).team1
          ++ (assignAll (sortSlice (pool ++ [p]))).team2).Perm (pool ++ [p]) :=
        (assignAll_perm _).trans (sortSlice_perm _)
      have hpl : (pool ++ [p]).length = 10 := by simp; omega
      have happ : pool ++ p :: ps = (pool ++ [p]) ++ ps := by simp
      simp only [addPlayers, hA]
      refine ⟨by simp [i1], ?_, ?_, ?_⟩
      · have e : 10 * ((pool.length + (p :: ps).length) / 10)
            = (pool ++ [p]).length + 10 * (ps.length / 10) := by
          simp only [List.length_cons, hpl]; omega
        rw [i2, happ, e, List.drop_append]
        simp
      · have := hperm.append i3
        simpa [matchedPlayers, List.append_assoc] using this
      · intro k hk
        cases k with
        | zero =>
          refine ⟨fun _ => ⟨⟨(assignAll (sortSlice (pool ++ [p]))).team1,
            (assignAll (sortSlice (pool ++ [p]))).team2⟩, by simp, ?_⟩, fun h => by omega⟩
          have e : pool.length + 0 + 1 - 10 = 0 := by omega
          rw [e, List.drop_zero, happ, ← hpl, List.take_left]
          exact hperm
        | succ k =>
          have hk' : k < ps.length := by simpa using hk
          obtain ⟨j1, j2⟩ := i4 k hk'
          simp only [List.length_nil, List.nil_append, Nat.zero_add] at j1 j2
          refine ⟨fun h => ?_, fun h => ?_⟩
          · have hm : (k + 1) % 10 = 0 := by omega
            obtain ⟨mt, m1, m2⟩ := j1 hm
            refine ⟨mt, by simpa using m1, ?_⟩
            have e : pool.length + (k + 1) + 1 - 10 = (pool ++ [p]).length + (k + 1 - 10) := by
              rw [hpl]; omega
            rw [happ, e, List.drop_append]
            exact m2
          · have hm : (k + 1) % 10 ≠ 0 := by omega
            simpa using j2 hm

/-! ## Lemmas on NotifyMatchReady -/

theorem notifyClient_eq (client : WebSocketClient) (mt : Match) (players : List Player) :
    notifyClient client mt players
      = if players.any (fun p => decide (client.id = p.Id)) then [(client.conn, mt)] else [] := by
  induction players with
  | nil => rfl
  | cons p rest ih =>
    by_cases h : client.id = p.Id
    · simp [notifyClient, h]
    · simp [notifyClient, h, ih]

theorem flatMap_notifyClient (clients : List (Nat × WebSocketClient)) (mt : Match)
    (players : List Player) :
    clients.flatMap (fun e => notifyClient e.2 mt players)
      = (clients.filter (fun e => players.any (fun p => decide (e.2.id = p.Id)))).map
          (fun e => (e.2.conn, mt)) := by
  induction clients with
  | nil => rfl
  | cons e rest ih =>
    rw [List.flatMap_cons, ih, notifyClient_eq, List.filter_cons]
    by_cases h : players.any (fun p => decide (e.2.id = p.Id)) = true
    · simp [h]
    · simp [h]

theorem NotifyMatchReady_append (r : Registry) (extra : List (Nat × WebSocketClient)) (n : Nat)
    (mt : Match) :
    NotifyMatchReady { clients := r.clients ++ extra, next := n } mt
      = NotifyMatchReady r mt
        ++ extra.flatMap (fun e => notifyClient e.2 mt (mt.Team1 ++ mt.Team2)) := by
  simp [NotifyMatchReady, List.flatMap_append]

/-! ## The claims -/

/-- C1: from the empty pool, the k-th `AddPlayer` call returns a match exactly
when k is a positive multiple of 10 and `(nil, false)` otherwise; the match of
the k-th call consists of the ten submissions `p(k-9)..pk`; and the players of
all matches together with the players still waiting are the submitted players,
each once.  The pool keeps the submissions after the last full ten. -/
theorem addPlayers_every_tenth (ps : List Player) (k : Nat) (h1 : 1 ≤ k) (hk : k ≤ ps.length) :
    (k % 10 = 0 →
        ∃ mt, (addPlayers matchmaker ps).2[k - 1]? = some (some mt, true)
          ∧ (mt.Team1 ++ mt.Team2).Perm ((ps.drop (k - 10)).take 10))
    ∧ (k % 10 ≠ 0 → (addPlayers matchmaker ps).2[k - 1]? = some (none, false))
    ∧ (matchedPlayers (addPlayers matchmaker ps).2
        ++ (addPlayers matchmaker ps).1.PlayerPool).Perm ps
    ∧ (addPlayers matchmaker ps).1.PlayerPool = ps.drop (10 * (ps.length / 10)) := by
  obtain ⟨_, i2, i3, i4⟩ := addPlayers_inv ps [] (by simp)
  obtain ⟨j1, j2⟩ := i4 (k - 1) (by omega)
  have e : ([] : List Player).length + (k - 1) + 1 = k := by simp; omega
  rw [e] at j1 j2
  refine ⟨?_, j2, by simpa using i3, by simpa using i2⟩
  simpa using j1

/-- C1 at the twenty submissions of `twoRounds`, call 20. -/
theorem addPlayers_every_tenth_witness :
    1 ≤ 20 ∧ 20 ≤ twoRounds.length
    ∧ ∃ mt, (addPlayers matchmaker twoRounds).2[20 - 1]? = some (some mt, true)
        ∧ (mt.Team1 ++ mt.Team2).Perm ((twoRounds.drop (20 - 10)).take 10) :=
  ⟨by decide, by decide,
    (addPlayers_every_tenth twoRounds 20 (by decide) (by decide)).1 (by decide)⟩

/-- C2 fails when a rating sum overflows: on `huge` the loop of `createMatch`
puts a single player on Team2, while the reference split, which compares the
sums of the ratings, puts four players there. -/
theorem referenceSplit_overflow_counterexample :
    huge.length = 10
    ∧ (createMatch ⟨huge⟩ (by decide)).2.Team2.length = 1
    ∧ (exactSplit huge).2.length = 4
    ∧ (createMatch ⟨huge⟩ (by decide)).2.Team2 ≠ (exactSplit huge).2 := by
  rw [exactSplit, ← sortSlice_eq_mergeSort]
  decide

/-- C2 amended: for a pool of ten players whose ratings have absolute values
that total at most `2^63 - 1`, the teams `createMatch` returns are those of the
reference definition: stable sort by rating descending, then each player to
the team with the lower sum of ratings, team1 on equal sums, in assignment
order. -/
theorem createMatch_eq_exactSplit (m : Matchmaker) (h10 : m.PlayerPool.length = 10)
    (hsum : absTotal m.PlayerPool ≤ maxInt) :
    (createMatch m (le_of_eq h10.symm)).2.Team1 = (exactSplit m.PlayerPool).1
    ∧ (createMatch m (le_of_eq h10.symm)).2.Team2 = (exactSplit m.PlayerPool).2 := by
  have htake : (sortSlice m.PlayerPool).take 10 = sortSlice m.PlayerPool := by
    apply List.take_of_length_le
    rw [sortSlice_length]; omega
  have hs : absTotal (sortSlice m.PlayerPool) ≤ maxInt := by
    rw [absTotal_perm (sortSlice_perm m.PlayerPool)]; exact hsum
  have h := coreStep_exact (sortSlice m.PlayerPool) ([], [], 0, 0) rfl rfl
    (by simpa using hs)
  rw [← core_assignAll] at h
  simp only [createMatch, htake, exactSplit, ← sortSlice_eq_mergeSort, ← h]
  exact ⟨rfl, rfl⟩

/-- C2 amended at the pool holding the ten players of `scenario`. -/
theorem createMatch_eq_exactSplit_witness :
    (⟨scenario⟩ : Matchmaker).PlayerPool.length = 10 ∧ absTotal scenario ≤ maxInt
    ∧ (createMatch ⟨scenario⟩ (by decide)).2.Team1 = (exactSplit scenario).1
    ∧ (createMatch ⟨scenario⟩ (by decide)).2.Team2 = (exactSplit scenario).2 :=
  ⟨rfl, by decide, createMatch_eq_exactSplit ⟨scenario⟩ rfl (by decide)⟩

/-- C3: on the submissions `skewed` the tenth call returns a match with one
player in Team1 and nine in Team2, while the lines printed by the loop name
teams 1 and 2 in turn. -/
theorem addPlayers_skewed_teams :
    ((addPlayers matchmaker skewed).2[9]?.bind (fun r => r.1)).map
        (fun mt => (mt.Team1.length, mt.Team2.length)) = some (1, 9)
    ∧ (createMatchPrinted ⟨skewed⟩).map (fun line => line.2) = [1, 2, 1, 2, 1, 2, 1, 2, 1, 2] := by
  decide

/-- C4 fails with negative ratings: on `negatives` the final rating sums
are 10 and -90, 100 apart, and the maximum rating is 10. -/
theorem rating_gap_negative_counterexample :
    negatives.length = 10
    ∧ ¬ (|(assignAll ((sortSlice negatives).take 10)).team1Rating
          - (assignAll ((sortSlice negatives).take 10)).team2Rating| ≤ maxRating negatives) := by
  decide

/-- C4 amended: for a batch of ten players with non-negative ratings whose
total fits a Go `int`, after every iteration of the loop of `createMatch` the
two rating sums are the sums of the teams and differ by at most the maximum
rating of the batch. -/
theorem running_rating_gap (pool : List Player) (k : Nat) (h10 : pool.length = 10)
    (hnn : ∀ p ∈ pool, 0 ≤ p.Rating) (hsum : totalRating pool ≤ maxInt) :
    (assignUpTo ((sortSlice pool).take 10) k).team1Rating
        = totalRating (assignUpTo ((sortSlice pool).take 10) k).team1
    ∧ (assignUpTo ((sortSlice pool).take 10) k).team2Rating
        = totalRating (assignUpTo ((sortSlice pool).take 10) k).team2
    ∧ |(assignUpTo ((sortSlice pool).take 10) k).team1Rating
        - (assignUpTo ((sortSlice pool).take 10) k).team2Rating| ≤ maxRating pool := by
  have hmem : ∀ p ∈ (sortSlice pool).take 10, 0 ≤ p.Rating ∧ p.Rating ≤ maxRating pool := by
    intro p hp
    have hp' : p ∈ pool := (sortSlice_perm pool).mem_iff.mp (List.mem_of_mem_take hp)
    exact ⟨hnn p hp', le_maxRating pool p hp'⟩
  have hM : 0 ≤ maxRating pool := by
    cases pool with
    | nil => simp at h10
    | cons a l =>
      exact le_trans (hnn a (List.mem_cons_self _ _)) (le_maxRating _ a (List.mem_cons_self _ _))
  have hs : totalRating ((sortSlice pool).take 10) ≤ maxInt := by
    have h1 := totalRating_take_le (sortSlice pool)
      (fun p hp => hnn p ((sortSlice_perm pool).mem_iff.mp hp)) 10
    have h2 := totalRating_perm (sortSlice_perm pool)
    omega
  exact assignUpTo_bound _ _ k hmem hM hs

/-- C4 amended at `scenario` after three iterations. -/
theorem running_rating_gap_witness :
    scenario.length = 10 ∧ (∀ p ∈ scenario, 0 ≤ p.Rating) ∧ totalRating scenario ≤ maxInt
    ∧ |(assignUpTo ((sortSlice scenario).take 10) 3).team1Rating
        - (assignUpTo ((sortSlice scenario).take 10) 3).team2Rating| ≤ maxRating scenario :=
  ⟨rfl, by decide, by decide,
    (running_rating_gap scenario 3 rfl (by decide) (by decide)).2.2⟩

/-- C5: on `scenario` the first nine calls return no match and the tenth
returns a match with Team1 rated `[100,70,60,30,20]`, sum 280, and Team2 rated
`[90,80,50,40,10]`, sum 270, while the lines the loop prints name the teams of
the claim, rated `[100,80,60,40,20]` and `[90,70,50,30,10]`. -/
theorem scenario_teams :
    (addPlayers matchmaker scenario).2
      = List.replicate 9 (none, false) ++
        [(some ⟨[⟨"p9", 100, ""⟩, ⟨"p7", 70, ""⟩, ⟨"p8", 60, ""⟩, ⟨"p2", 30, ""⟩, ⟨"p3", 20, ""⟩],
          [⟨"p5", 90, ""⟩, ⟨"p6", 80, ""⟩, ⟨"p0", 50, ""⟩, ⟨"p1", 40, ""⟩, ⟨"p4", 10, ""⟩]⟩, true)]
    ∧ totalRating [⟨"p9", 100, ""⟩, ⟨"p7", 70, ""⟩, ⟨"p8", 60, ""⟩, ⟨"p2", 30, ""⟩, ⟨"p3", 20, ""⟩]
        = 280
    ∧ totalRating [⟨"p5", 90, ""⟩, ⟨"p6", 80, ""⟩, ⟨"p0", 50, ""⟩, ⟨"p1", 40, ""⟩, ⟨"p4", 10, ""⟩]
        = 270
    ∧ ((addPlayers matchmaker scenario).2[9]?.bind (fun r => r.1)).map
        (fun mt => mt.Team1.map Player.Rating) ≠ some [100, 80, 60, 40, 20]
    ∧ ((addPlayers matchmaker scenario).2[9]?.bind (fun r => r.1)).map
        (fun mt => mt.Team2.map Player.Rating) ≠ some [90, 70, 50, 30, 10]
    ∧ (printedTeam ⟨scenario⟩ 1).map Player.Rating = [100, 80, 60, 40, 20]
    ∧ (printedTeam ⟨scenario⟩ 2).map Player.Rating = [90, 70, 50, 30, 10] := by
  decide

/-- C6 fails: on a pool built with ten players rated 0 and a latecomer rated 1,
a state with more than ten players as the claim names, the match leaves out
`q9`, who was among the first ten, and takes the latecomer; `q9` is what
remains in the pool. -/
theorem AddPlayer_fifo_counterexample :
    10 ≤ (tenWaiting.PlayerPool ++ [latecomer]).length
    ∧ (AddPlayer tenWaiting latecomer).1.PlayerPool = [⟨"q9", 0, ""⟩]
    ∧ (AddPlayer tenWaiting latecomer).1.PlayerPool
        ≠ (tenWaiting.PlayerPool ++ [latecomer]).drop 10
    ∧ (AddPlayer tenWaiting latecomer).2.1.map (fun mt => decide (latecomer ∈ mt.Team1))
        = some true := by
  decide

/-- C6 amended: when the pool followed by `p` has ten, eleven or twelve
elements, `AddPlayer` sorts that sequence by rating descending, players of
equal rating in submission order, forms the match from exactly the first ten
players of the sorted sequence and leaves the rest of the sorted sequence as
the pool; when the sequence has exactly ten elements the match holds exactly
those ten and the pool is left empty. -/
theorem AddPlayer_sorted_batch (m : Matchmaker) (p : Player)
    (h : 10 ≤ (m.PlayerPool ++ [p]).length) (h12 : (m.PlayerPool ++ [p]).length ≤ 12) :
    ∃ mt, (AddPlayer m p).2 = (some mt, true)
      ∧ (mt.Team1 ++ mt.Team2).Perm ((sortSlice (m.PlayerPool ++ [p])).take 10)
      ∧ (AddPlayer m p).1.PlayerPool = (sortSlice (m.PlayerPool ++ [p])).drop 10
      ∧ (sortSlice (m.PlayerPool ++ [p])).Perm (m.PlayerPool ++ [p])
      ∧ (sortSlice (m.PlayerPool ++ [p])).Pairwise (fun a b => a.Rating ≥ b.Rating)
      ∧ (∀ k : Int, (sortSlice (m.PlayerPool ++ [p])).filter (fun q => decide (q.Rating = k))
          = (m.PlayerPool ++ [p]).filter (fun q => decide (q.Rating = k)))
      ∧ ((m.PlayerPool ++ [p]).length = 10 →
          (mt.Team1 ++ mt.Team2).Perm (m.PlayerPool ++ [p])
            ∧ (AddPlayer m p).1.PlayerPool = []) := by
  have _ := h12
  have hA := AddPlayer_formed m.PlayerPool p (by simpa using h)
  refine ⟨_, by rw [hA], assignAll_perm _, by rw [hA], sortSlice_perm _, sortSlice_sorted _,
    fun k => sortSlice_filter k _, ?_⟩
  intro h10
  have hlen : (sortSlice (m.PlayerPool ++ [p])).length = 10 := by
    rw [sortSlice_length]; exact h10
  constructor
  · have htake : (sortSlice (m.PlayerPool ++ [p])).take 10 = sortSlice (m.PlayerPool ++ [p]) := by
      apply List.take_of_length_le; omega
    have := assignAll_perm ((sortSlice (m.PlayerPool ++ [p])).take 10)
    rw [htake] at this ⊢
    exact this.trans (sortSlice_perm _)
  · rw [hA]
    apply List.drop_eq_nil_of_le; omega

/-- C6 amended at the pool of ten waiting players and the latecomer, eleven
players in all. -/
theorem AddPlayer_sorted_batch_witness :
    10 ≤ (tenWaiting.PlayerPool ++ [latecomer]).length
    ∧ (tenWaiting.PlayerPool ++ [latecomer]).length ≤ 12
    ∧ ∃ mt, (AddPlayer tenWaiting latecomer).2 = (some mt, true)
      ∧ (AddPlayer tenWaiting latecomer).1.PlayerPool
          = (sortSlice (tenWaiting.PlayerPool ++ [latecomer])).drop 10 :=
  ⟨by decide, by decide,
    (AddPlayer_sorted_batch tenWaiting latecomer (by decide) (by decide)).imp
      (fun _ hmt => ⟨hmt.1, hmt.2.2.1⟩)⟩

/-- C10 fails when a rating sum overflows: on `huge`, non-negative ratings
with maximum `2^62`, the match has seven players rated `2^62` on Team1 and one
on Team2, so the sums of the two teams are `6 * 2^62` apart. -/
theorem rating_gap_overflow_counterexample :
    huge.length = 10 ∧ (∀ p ∈ huge, 0 ≤ p.Rating)
    ∧ maxRating huge = 4611686018427387904
    ∧ totalRating (createMatch ⟨huge⟩ (by decide)).2.Team1
        - totalRating (createMatch ⟨huge⟩ (by decide)).2.Team2 = 6 * 4611686018427387904
    ∧ ¬ (|totalRating (createMatch ⟨huge⟩ (by decide)).2.Team1
          - totalRating (createMatch ⟨huge⟩ (by decide)).2.Team2| ≤ maxRating huge)
    ∧ ¬ (|(assignAll ((sortSlice huge).take 10)).team1Rating
          - (assignAll ((sortSlice huge).take 10)).team2Rating| ≤ maxRating huge) := by
  decide

/-- C10 amended: for a pool of ten players with non-negative ratings whose
total is at most `2^63 - 1`, the sums of the ratings of the two teams of the
match differ by at most the maximum rating of the batch, and so do the sums of
the teams after every iteration of the loop. -/
theorem createMatch_rating_gap (pool : List Player) (h10 : pool.length = 10)
    (hnn : ∀ p ∈ pool, 0 ≤ p.Rating) (hsum : totalRating pool ≤ maxInt) :
    |totalRating (createMatch ⟨pool⟩ (le_of_eq h10.symm)).2.Team1
        - totalRating (createMatch ⟨pool⟩ (le_of_eq h10.symm)).2.Team2| ≤ maxRating pool
    ∧ ∀ k, |totalRating (assignUpTo ((sortSlice pool).take 10) k).team1
        - totalRating (assignUpTo ((sortSlice pool).take 10) k).team2| ≤ maxRating pool := by
  have hmem : ∀ p ∈ (sortSlice pool).take 10, 0 ≤ p.Rating ∧ p.Rating ≤ maxRating pool := by
    intro p hp
    have hp' : p ∈ pool := (sortSlice_perm pool).mem_iff.mp (List.mem_of_mem_take hp)
    exact ⟨hnn p hp', le_maxRating pool p hp'⟩
  have hM : 0 ≤ maxRating pool := by
    cases pool with
    | nil => simp at h10
    | cons a l =>
      exact le_trans (hnn a (List.mem_cons_self _ _)) (le_maxRating _ a (List.mem_cons_self _ _))
  have hs : totalRating ((sortSlice pool).take 10) ≤ maxInt := by
    have h1 := totalRating_take_le (sortSlice pool)
      (fun p hp => hnn p ((sortSlice_perm pool).mem_iff.mp hp)) 10
    have h2 := totalRating_perm (sortSlice_perm pool)
    omega
  have hall : ∀ k, |totalRating (assignUpTo ((sortSlice pool).take 10) k).team1
        - totalRating (assignUpTo ((sortSlice pool).take 10) k).team2| ≤ maxRating pool := by
    intro k
    obtain ⟨e1, e2, hb⟩ := assignUpTo_bound _ _ k hmem hM hs
    rw [← e1, ← e2]
    exact hb
  refine ⟨?_, hall⟩
  have hfin := hall ((sortSlice pool).take 10).length
  have e : assignUpTo ((sortSlice pool).take 10) ((sortSlice pool).take 10).length
      = assignAll ((sortSlice pool).take 10) := by
    unfold assignUpTo
    rw [List.take_length]
  rw [e] at hfin
  exact hfin

/-- C10 amended at `scenario`: the teams sum to 280 and 270, 10 apart, and the
maximum rating is 100. -/
theorem createMatch_rating_gap_witness :
    scenario.length = 10 ∧ (∀ p ∈ scenario, 0 ≤ p.Rating) ∧ totalRating scenario ≤ maxInt
    ∧ |totalRating (createMatch ⟨scenario⟩ (by decide)).2.Team1
        - totalRating (createMatch ⟨scenario⟩ (by decide)).2.Team2| ≤ maxRating scenario :=
  ⟨rfl, by decide, by decide,
    (createMatch_rating_gap scenario rfl (by decide) (by decide)).1⟩

/-- C7: `NotifyMatchReady` writes the match once to each registered client
whose id is the Id of a player of Team1 or Team2, to no other client, and to
nobody when no registered client has the id of a participant. -/
theorem NotifyMatchReady_sends (r : Registry) (mt : Match) :
    NotifyMatchReady r mt
      = (r.clients.filter
          (fun e => (mt.Team1 ++ mt.Team2).any (fun p => decide (e.2.id = p.Id)))).map
          (fun e => (e.2.conn, mt))
    ∧ ((∀ e ∈ r.clients, ∀ p ∈ mt.Team1 ++ mt.Team2, e.2.id ≠ p.Id) →
        NotifyMatchReady r mt = []) := by
  have h := flatMap_notifyClient r.clients mt (mt.Team1 ++ mt.Team2)
  refine ⟨h, fun hno => ?_⟩
  unfold NotifyMatchReady
  rw [h, List.map_eq_nil_iff, List.filter_eq_nil_iff]
  intro e he
  simp only [List.any_eq_true, decide_eq_true_eq, not_exists, not_and]
  exact fun p hp => hno e he p hp

/-- C7 with `p1` registered and then removed: one write while registered, none
after the client is deleted, none on the empty registry. -/
theorem NotifyMatchReady_sends_witness :
    NotifyMatchReady (RegisterWebSocket Registry.empty 7 "p1").1 matchWithP1 = [(7, matchWithP1)]
    ∧ NotifyMatchReady
        (unregisterWebSocket (RegisterWebSocket Registry.empty 7 "p1").1
          (RegisterWebSocket Registry.empty 7 "p1").2) matchWithP1 = []
    ∧ NotifyMatchReady Registry.empty matchWithP1 = [] :=
  ⟨by decide, by decide,
    (NotifyMatchReady_sends Registry.empty matchWithP1).2 (fun _ he => by simp [Registry.empty] at he)⟩

/-- C8 fails: a POST whose body decodes to a player without identity is
accepted, and the pool then holds that player. -/
theorem handleMatchmaking_empty_id_counterexample :
    anonymous.Id = ""
    ∧ (handleMatchmaking matchmaker ⟨"POST", some anonymous⟩).1.PlayerPool = [anonymous]
    ∧ (handleMatchmaking matchmaker ⟨"POST", some anonymous⟩).2
        = Response.accepted "Player  added to the pool. Waiting for more players..." := by
  decide

/-- C8 amended: for a POST whose body decodes to a player, whatever its
identity, `handleMatchmaking` calls `AddPlayer` with that player: the pool
becomes the one `AddPlayer` leaves, and is the old pool followed by the player
while fewer than ten are waiting.  A request with another method and a body
that does not decode are answered with an error and leave the pool as it was. -/
theorem handleMatchmaking_forwards (m : Matchmaker) (player : Player) :
    (handleMatchmaking m ⟨"POST", some player⟩).1 = (AddPlayer m player).1
    ∧ (m.PlayerPool.length + 1 < 10 →
        (handleMatchmaking m ⟨"POST", some player⟩).1.PlayerPool = m.PlayerPool ++ [player])
    ∧ (handleMatchmaking m ⟨"POST", none⟩ = (m, Response.error "Invalid JSON" 400))
    ∧ (∀ (method : String) (body : Option Player), method ≠ "POST" →
        handleMatchmaking m ⟨method, body⟩ = (m, Response.error "Invalid request method" 405)) := by
  have h1 : (handleMatchmaking m ⟨"POST", some player⟩).1 = (AddPlayer m player).1 := by
    unfold handleMatchmaking
    by_cases hb : (AddPlayer m player).2.2 = true <;> simp [hb]
  refine ⟨h1, ?_, ?_, ?_⟩
  · intro hlt
    rw [h1]
    have := AddPlayer_waiting m.PlayerPool player hlt
    rw [show m = ⟨m.PlayerPool⟩ from rfl, this]
  · simp [handleMatchmaking]
  · intro method body hne
    simp [handleMatchmaking, hne]

/-- C8 amended at the empty pool and the player without identity. -/
theorem handleMatchmaking_forwards_witness :
    (handleMatchmaking matchmaker ⟨"POST", some anonymous⟩).1.PlayerPool
      = matchmaker.PlayerPool ++ [anonymous] :=
  (handleMatchmaking_forwards matchmaker anonymous).2.1 (by decide)

/-- C9 fails: after two registrations under `p1`, on connections 1 and 2, the
registry holds two clients with that id and a match containing `p1` is written
to both connections, the old one included. -/
theorem RegisterWebSocket_duplicate_counterexample :
    (RegisterWebSocket (RegisterWebSocket Registry.empty 1 "p1").1 2 "p1").1.clients
      = [(0, ⟨1, "p1"⟩), (1, ⟨2, "p1"⟩)]
    ∧ NotifyMatchReady (RegisterWebSocket (RegisterWebSocket Registry.empty 1 "p1").1 2 "p1").1
        matchWithP1 = [(1, matchWithP1), (2, matchWithP1)]
    ∧ NotifyMatchReady (RegisterWebSocket (RegisterWebSocket Registry.empty 1 "p1").1 2 "p1").1
        matchWithP1 ≠ [(2, matchWithP1)] := by
  decide

/-- C9 amended: registering a second connection under an identity that is
already registered adds a second client and keeps the first; a later match
containing that identity is written to both connections, once each, after the
writes to the clients registered before. -/
theorem RegisterWebSocket_keeps_both (r : Registry) (c1 c2 : Nat) (ident : String) (mt : Match)
    (hin : ∃ p ∈ mt.Team1 ++ mt.Team2, p.Id = ident) :
    (RegisterWebSocket (RegisterWebSocket r c1 ident).1 c2 ident).1.clients
      = r.clients ++ [(r.next, ⟨c1, ident⟩), (r.next + 1, ⟨c2, ident⟩)]
    ∧ NotifyMatchReady (RegisterWebSocket (RegisterWebSocket r c1 ident).1 c2 ident).1 mt
      = NotifyMatchReady r mt ++ [(c1, mt), (c2, mt)] := by
  have hany : (mt.Team1 ++ mt.Team2).any (fun p => decide (ident = p.Id)) = true := by
    obtain ⟨p, hp, hid⟩ := hin
    exact List.any_eq_true.mpr ⟨p, hp, by simp [hid]⟩
  have hc : (RegisterWebSocket (RegisterWebSocket r c1 ident).1 c2 ident).1
      = { clients := r.clients ++ [(r.next, ⟨c1, ident⟩), (r.next + 1, ⟨c2, ident⟩)],
          next := r.next + 1 + 1 } := by
    simp [RegisterWebSocket]
  rw [hc]
  refine ⟨rfl, ?_⟩
  rw [NotifyMatchReady_append]
  simp only [List.flatMap_cons, List.flatMap_nil, notifyClient_eq, hany, if_true,
    List.append_nil, List.singleton_append]

/-- C9 amended at the empty registry, connections 1 and 2, identity `p1`. -/
theorem RegisterWebSocket_keeps_both_witness :
    (∃ p ∈ matchWithP1.Team1 ++ matchWithP1.Team2, p.Id = "p1")
    ∧ NotifyMatchReady (RegisterWebSocket (RegisterWebSocket Registry.empty 1 "p1").1 2 "p1").1
        matchWithP1 = NotifyMatchReady Registry.empty matchWithP1
          ++ [(1, matchWithP1), (2, matchWithP1)] :=
  ⟨⟨⟨"p1", 40, ""⟩, by decide, rfl⟩,
    (RegisterWebSocket_keeps_both Registry.empty 1 2 "p1" matchWithP1
      ⟨⟨"p1", 40, ""⟩, by decide, rfl⟩).2⟩

/-! ## Further properties of the code -/

/-- On a pool of ten to twelve players the teams `createMatch` returns are a
partition of the first ten players of the sorted pool: together they are a
permutation of them, their sizes add up to ten, and with the pool that is left
they are the players of the pool before the call. -/
theorem createMatch_partition (m : Matchmaker) (h : 10 ≤ m.PlayerPool.length)
    (_h12 : m.PlayerPool.length ≤ 12) :
    ((createMatch m h).2.Team1 ++ (createMatch m h).2.Team2).Perm
        ((sortSlice m.PlayerPool).take 10)
    ∧ (createMatch m h).2.Team1.length + (createMatch m h).2.Team2.length = 10
    ∧ ((createMatch m h).2.Team1 ++ (createMatch m h).2.Team2
        ++ (createMatch m h).1.PlayerPool).Perm m.PlayerPool := by
  have hp := assignAll_perm ((sortSlice m.PlayerPool).take 10)
  have hlen : ((sortSlice m.PlayerPool).take 10).length = 10 := by
    rw [List.length_take, sortSlice_length]; omega
  refine ⟨hp, ?_, ?_⟩
  · have := hp.length_eq
    rw [List.length_append, hlen] at this
    exact this
  · have h1 := hp.append_right ((sortSlice m.PlayerPool).drop 10)
    rw [List.take_append_drop] at h1
    exact h1.trans (sortSlice_perm _)

/-- The partition of `createMatch` at the pool of ten waiting players followed
by the latecomer. -/
theorem createMatch_partition_witness :
    10 ≤ (tenWaiting.PlayerPool ++ [latecomer]).length
    ∧ (tenWaiting.PlayerPool ++ [latecomer]).length ≤ 12
    ∧ (createMatch ⟨tenWaiting.PlayerPool ++ [latecomer]⟩ (by decide)).2.Team1.length
        + (createMatch ⟨tenWaiting.PlayerPool ++ [latecomer]⟩ (by decide)).2.Team2.length = 10 :=
  ⟨by decide, by decide,
    (createMatch_partition ⟨tenWaiting.PlayerPool ++ [latecomer]⟩ (by decide) (by decide)).2.1⟩

/-- On a pool of at most 12 players the sort run by `createMatch` returns a
permutation of the pool, sorted by rating descending, in which the players of
each rating keep their order. -/
theorem sortSlice_stable (pool : List Player) (_h12 : pool.length ≤ 12) :
    (sortSlice pool).Perm pool
    ∧ (sortSlice pool).Pairwise (fun a b => a.Rating ≥ b.Rating)
    ∧ ∀ k : Int, (sortSlice pool).filter (fun p => decide (p.Rating = k))
        = pool.filter (fun p => decide (p.Rating = k)) :=
  ⟨sortSlice_perm pool, sortSlice_sorted pool, fun k => sortSlice_filter k pool⟩

/-- The sorted pool at `scenario`: ratings from 100 down to 10. -/
theorem sortSlice_stable_witness :
    scenario.length ≤ 12
    ∧ (sortSlice scenario).Pairwise (fun a b => a.Rating ≥ b.Rating) :=
  ⟨by decide, (sortSlice_stable scenario (by decide)).2.1⟩

/-- A client that registers and whose read loop then ends leaves the registry
as it was: its entry is deleted and the other entries stay, so later
notifications are those of the registry before it connected. -/
theorem unregister_after_register (r : Registry) (conn : Nat) (playerId : String) (mt : Match)
    (hfresh : ∀ e ∈ r.clients, e.1 < r.next) :
    (unregisterWebSocket (RegisterWebSocket r conn playerId).1
        (RegisterWebSocket r conn playerId).2).clients = r.clients
    ∧ NotifyMatchReady (unregisterWebSocket (RegisterWebSocket r conn playerId).1
        (RegisterWebSocket r conn playerId).2) mt = NotifyMatchReady r mt := by
  have hc : (unregisterWebSocket (RegisterWebSocket r conn playerId).1
      (RegisterWebSocket r conn playerId).2).clients = r.clients := by
    simp only [unregisterWebSocket, RegisterWebSocket, List.filter_append]
    have h1 : r.clients.filter (fun e => decide (e.1 ≠ r.next)) = r.clients := by
      rw [List.filter_eq_self]
      intro e he
      have := hfresh e he
      simp only [ne_eq, decide_not, Bool.not_eq_true', decide_eq_false_iff_not]
      omega
    rw [h1]
    simp
  refine ⟨hc, ?_⟩
  unfold NotifyMatchReady
  rw [hc]

/-- Registering and unregistering at the empty registry. -/
theorem unregister_after_register_witness :
    (∀ e ∈ Registry.empty.clients, e.1 < Registry.empty.next)
    ∧ (unregisterWebSocket (RegisterWebSocket Registry.empty 7 "p1").1
        (RegisterWebSocket Registry.empty 7 "p1").2).clients = Registry.empty.clients :=
  ⟨by decide, (unregister_after_register Registry.empty 7 "p1" matchWithP1 (by decide)).1⟩

/-- For every pool of ten players, overflow or not, the teams `createMatch`
returns are those of the reference split that takes the rating sums in Go
`int` arithmetic: stable sort by rating descending, then each player to the
team with the lower rating sum, team1 on equal sums, in assignment order. -/
theorem createMatch_eq_referenceSplit (m : Matchmaker) (h10 : m.PlayerPool.length = 10) :
    (createMatch m (le_of_eq h10.symm)).2.Team1 = (referenceSplit m.PlayerPool).1
    ∧ (createMatch m (le_of_eq h10.symm)).2.Team2 = (referenceSplit m.PlayerPool).2 := by
  have htake : (sortSlice m.PlayerPool).take 10 = sortSlice m.PlayerPool := by
    apply List.take_of_length_le
    rw [sortSlice_length]; omega
  have h := assignAll_reference (sortSlice m.PlayerPool)
  rw [sortSlice_eq_mergeSort] at h
  simp only [createMatch, htake, referenceSplit]
  rw [sortSlice_eq_mergeSort, ← h]
  exact ⟨rfl, rfl⟩

/-- The reference split in Go `int` arithmetic at `scenario`. -/
theorem createMatch_eq_referenceSplit_witness :
    (⟨scenario⟩ : Matchmaker).PlayerPool.length = 10
    ∧ (createMatch ⟨scenario⟩ (by decide)).2.Team1 = (referenceSplit scenario).1
    ∧ (createMatch ⟨scenario⟩ (by decide)).2.Team2 = (referenceSplit scenario).2 :=
  ⟨rfl, createMatch_eq_referenceSplit ⟨scenario⟩ rfl⟩

end Matchmaking
